import Mathlib

/-!
Verification development for the solana_analyzer backend.

Each Python function under scrutiny is shallow-embedded as an executable Lean
definition, translated directly from the source:

* multi_rpc_client.py : MultiRPCClient._call_with_retry / get_next_client
* cache.py           : TransactionCache.save_signatures / get_cached_signatures /
                       save_transaction / get_cached_transaction
* cached_analyzer.py : CachedTransactionAnalyzer.fetch_transaction_details_cached
* balance_tracker.py : BalanceTracker.calculate_balance_history
* transaction_analyzer.py : TransactionAnalyzer.analyze_token_flows

Modelling conventions used throughout:
* Python floats are modelled as exact rationals; the claims under study are
  stated in exact arithmetic.
* A Python value inspected only for truthiness is modelled by the Boolean it
  induces (for example a transaction meta error object becomes a Bool).
* Async I/O is modelled by passing the remote source as an explicit function;
  the bounded-concurrency batching preserves result order (asyncio.gather), so
  the batched loop is modelled as a sequential fold in input order.
-/

/-! ## MultiRPCClient (multi_rpc_client.py)

The pool state is the position of the itertools.cycle iterator plus the
per-endpoint statistics dictionary (requests, failures).  Endpoint behaviour is
modelled by the fixed outcome each endpoint returns when called: an endpoint is
an element of type Except String R (error message or result). -/

structure EndpointStat where
  requests : Nat
  failures : Nat
deriving Repr, DecidableEq

/-- State of a MultiRPCClient: the cycle position (the next endpoint to use is
at cycleIdx % number of endpoints) and the per-endpoint stats, parallel to
the endpoint list (stats are keyed by URL in Python; URLs are distinct). -/
structure PoolState where
  cycleIdx : Nat
  stats : List EndpointStat
deriving Repr, DecidableEq

/-- The single aggregated error raised by _call_with_retry:
f-string "All RPC endpoints failed after {max_retries} attempts: {last_error}". -/
structure AggError where
  retries : Nat
  cause : Option String
deriving Repr, DecidableEq

/-- Apply f to the i-th element of a list (used for the stats dictionary). -/
def bumpAt (f : EndpointStat → EndpointStat) : List EndpointStat → Nat → List EndpointStat
  | [], _ => []
  | s :: rest, 0 => f s :: rest
  | s :: rest, n + 1 => s :: bumpAt f rest n

/-- The while-loop of MultiRPCClient._call_with_retry, with fuel = the number
of attempts still allowed (max_retries - attempts).  Each iteration picks the
next endpoint round robin (get_next_client), increments its request counter,
and either returns the result or increments its failure counter, remembers the
error and continues.  When the fuel is exhausted the aggregated error wrapping
the last underlying cause is raised.  An empty endpoint list is out of the
modelled scope (Python would raise StopIteration from next(cycle([]))). -/
def callAux {R : Type} (eps : List (Except String R)) (maxRetries : Nat) :
    Nat → Option String → PoolState → Except AggError R × PoolState
  | 0, lastErr, st => (Except.error ⟨maxRetries, lastErr⟩, st)
  | fuel + 1, lastErr, st =>
    match eps[st.cycleIdx % eps.length]? with
    | none => (Except.error ⟨maxRetries, lastErr⟩, st)
    | some ep =>
      let i := st.cycleIdx % eps.length
      let st1 : PoolState :=
        ⟨st.cycleIdx + 1, bumpAt (fun s => { s with requests := s.requests + 1 }) st.stats i⟩
      match ep with
      | Except.ok r => (Except.ok r, st1)
      | Except.error e =>
        let st2 : PoolState :=
          ⟨st1.cycleIdx, bumpAt (fun s => { s with failures := s.failures + 1 }) st1.stats i⟩
        callAux eps maxRetries fuel (some e) st2

/-- MultiRPCClient._call_with_retry: up to maxRetries attempts shared across
all endpoints (the Python default is max_retries = 3). -/
def callWithRetry {R : Type} (eps : List (Except String R)) (maxRetries : Nat)
    (st : PoolState) : Except AggError R × PoolState :=
  callAux eps maxRetries maxRetries none st

/-! Helper lemmas about callAux. -/

/-- If every one of the next fuel + 1 endpoints in cycle order fails, the loop
raises the aggregated error wrapping the message of the last attempt, and the
cycle advances by exactly fuel + 1 attempts.  The map msg gives the error
message of the endpoint used at each absolute cycle position. -/
theorem callAux_all_fail {R : Type} (eps : List (Except String R)) (M : Nat)
    (msg : Nat → String) :
    ∀ fuel (st : PoolState) (lastErr : Option String),
      (∀ k, k < fuel + 1 →
        eps[(st.cycleIdx + k) % eps.length]? = some (Except.error (msg (st.cycleIdx + k)))) →
      (callAux eps M (fuel + 1) lastErr st).1 = Except.error ⟨M, some (msg (st.cycleIdx + fuel))⟩ ∧
      (callAux eps M (fuel + 1) lastErr st).2.cycleIdx = st.cycleIdx + (fuel + 1) := by
  intro fuel
  induction fuel with
  | zero =>
    intro st lastErr h
    have h0 := h 0 (by omega)
    simp only [Nat.add_zero] at h0
    simp [callAux, h0]
  | succ n ih =>
    intro st lastErr h
    have h0 := h 0 (by omega)
    simp only [Nat.add_zero] at h0
    have hrec := ih ⟨st.cycleIdx + 1,
        bumpAt (fun s => { s with failures := s.failures + 1 })
          (bumpAt (fun s => { s with requests := s.requests + 1 }) st.stats
            (st.cycleIdx % eps.length)) (st.cycleIdx % eps.length)⟩
      (some (msg st.cycleIdx))
      (by
        intro k hk
        show eps[(st.cycleIdx + 1 + k) % eps.length]? =
          some (Except.error (msg (st.cycleIdx + 1 + k)))
        have heq : st.cycleIdx + 1 + k = st.cycleIdx + (k + 1) := by omega
        rw [heq]
        exact h (k + 1) (by omega))
    constructor
    · show (callAux eps M (n + 1 + 1) lastErr st).1 = _
      rw [callAux]
      simp only [h0]
      have : st.cycleIdx + 1 + n = st.cycleIdx + (n + 1) := by omega
      rw [show (callAux eps M (n+1) (some (msg st.cycleIdx)) _).1 = _ from hrec.1]
      simp [this]
    · show (callAux eps M (n + 1 + 1) lastErr st).2.cycleIdx = _
      rw [callAux]
      simp only [h0]
      rw [show (callAux eps M (n+1) (some (msg st.cycleIdx)) _).2.cycleIdx = _ from hrec.2]
      show st.cycleIdx + 1 + (n + 1) = st.cycleIdx + (n + 1 + 1)
      omega

/-- If the next endpoint in cycle order succeeds, one attempt suffices. -/
theorem callAux_first_ok {R : Type} (eps : List (Except String R)) (M : Nat)
    (fuel : Nat) (st : PoolState) (lastErr : Option String) (r : R)
    (h : eps[st.cycleIdx % eps.length]? = some (Except.ok r)) :
    (callAux eps M (fuel + 1) lastErr st).1 = Except.ok r ∧
    (callAux eps M (fuel + 1) lastErr st).2.cycleIdx = st.cycleIdx + 1 := by
  rw [callAux]
  simp [h]

/-- If the next endpoint fails but there is fuel left, the loop moves on to the
next endpoint with the failure recorded as the last error. -/
theorem callAux_first_error {R : Type} (eps : List (Except String R)) (M : Nat)
    (fuel : Nat) (st : PoolState) (lastErr : Option String) (e : String)
    (h : eps[st.cycleIdx % eps.length]? = some (Except.error e)) :
    callAux eps M (fuel + 1) lastErr st =
      callAux eps M fuel (some e)
        ⟨st.cycleIdx + 1, bumpAt (fun s => { s with failures := s.failures + 1 })
          (bumpAt (fun s => { s with requests := s.requests + 1 }) st.stats
            (st.cycleIdx % eps.length)) (st.cycleIdx % eps.length)⟩ := by
  rw [callAux]
  simp [h]

/-! ## Claims C3 and C9 (SourcePool) -/

/-- Pool of five endpoints that always fail (messages e1..e5). -/
def epsAllFail : List (Except String Nat) :=
  [Except.error "e1", Except.error "e2", Except.error "e3",
   Except.error "e4", Except.error "e5"]

/-- Fresh pool state over five endpoints. -/
def poolStart5 : PoolState := ⟨0, List.replicate 5 ⟨0, 0⟩⟩

/-- C3 counterexample: with the default shared budget of three attempts and a
pool of five always-failing endpoints, _call_with_retry raises the aggregated
error (wrapping the cause of the third attempt) even though the fourth and
fifth endpoints were never tried (their request counters are still zero).  So
the claim that failure occurs only after every endpoint in the pool has been
tried is false. -/
theorem c3_retry_budget_counterexample :
    (callWithRetry epsAllFail 3 poolStart5).1 = Except.error ⟨3, some "e3"⟩ ∧
    (callWithRetry epsAllFail 3 poolStart5).2.stats[3]? = some ⟨0, 0⟩ ∧
    (callWithRetry epsAllFail 3 poolStart5).2.stats[4]? = some ⟨0, 0⟩ :=
  ⟨rfl, rfl, rfl⟩

/-- C3 (amended): if _call_with_retry fails, it raises the single aggregated
error wrapping the last underlying cause, after exactly max_retries attempts
on consecutive round-robin endpoints — which covers every endpoint only when
max_retries is at least the pool size; and any single endpoint error before
budget exhaustion is recovered by moving to the next endpoint. -/
theorem c3_retry_budget_amended {R : Type} (eps : List (Except String R))
    (st : PoolState) (n : Nat) (hn : 1 ≤ n) :
    (∀ msg : Nat → String,
      (∀ k, k < n →
        eps[(st.cycleIdx + k) % eps.length]? = some (Except.error (msg k))) →
      (callWithRetry eps n st).1 = Except.error ⟨n, some (msg (n - 1))⟩ ∧
      (callWithRetry eps n st).2.cycleIdx = st.cycleIdx + n) ∧
    (∀ e r, 2 ≤ n → eps[st.cycleIdx % eps.length]? = some (Except.error e) →
      eps[(st.cycleIdx + 1) % eps.length]? = some (Except.ok r) →
      (callWithRetry eps n st).1 = Except.ok r) := by
  constructor
  · intro msg hfail
    obtain ⟨m, rfl⟩ : ∃ m, n = m + 1 := ⟨n - 1, by omega⟩
    have key := callAux_all_fail eps (m + 1) (fun a => msg (a - st.cycleIdx)) m st none
      (by
        intro k hk
        have h := hfail k hk
        simpa [Nat.add_sub_cancel_left] using h)
    unfold callWithRetry
    refine ⟨?_, key.2⟩
    rw [key.1]
    simp [Nat.add_sub_cancel_left]
  · intro e r h2 hbad hgood
    obtain ⟨f, rfl⟩ : ∃ f, n = f + 2 := ⟨n - 2, by omega⟩
    unfold callWithRetry
    rw [show f + 2 = (f + 1) + 1 from rfl, callAux_first_error eps (f + 2) (f + 1) st none e hbad]
    exact (callAux_first_ok eps (f + 2) f _ (some e) r hgood).1

/-- Two endpoints failing with distinguishable messages. -/
def epsPair : List (Except String Nat) := [Except.error "a1", Except.error "a2"]

/-- Fresh pool state over two endpoints. -/
def poolStart2 : PoolState := ⟨0, List.replicate 2 ⟨0, 0⟩⟩

/-- C3 amended witness at a concrete pool: both endpoints fail, the call fails
after exactly two attempts wrapping the second message. -/
theorem c3_retry_budget_amended_witness :
    (callWithRetry epsPair 2 poolStart2).1 = Except.error ⟨2, some "a2"⟩ ∧
    (callWithRetry epsPair 2 poolStart2).2.cycleIdx = poolStart2.cycleIdx + 2 :=
  (c3_retry_budget_amended epsPair poolStart2 2 (by omega)).1
    (fun k => if k = 0 then "a1" else "a2")
    (by intro k hk; interval_cases k <;> rfl)

/-- C9: in a pool of N ≥ 2 endpoints where one endpoint always fails and every
other endpoint always succeeds, a call with the default budget of three
attempts returns successfully, from every starting position of the cycle,
within at most N attempts (the cycle position advances once per attempt). -/
theorem c9_failover_liveness {R : Type} (eps : List (Except String R)) (f : Nat)
    (st : PoolState) (hN : 2 ≤ eps.length) (hf : f < eps.length)
    (hfail : ∃ e, eps[f]? = some (Except.error e))
    (hok : ∀ j, j < eps.length → j ≠ f → ∃ r, eps[j]? = some (Except.ok r)) :
    (∃ r, (callWithRetry eps 3 st).1 = Except.ok r) ∧
    (callWithRetry eps 3 st).2.cycleIdx - st.cycleIdx ≤ eps.length := by
  have hNpos : 0 < eps.length := by omega
  have hlt : st.cycleIdx % eps.length < eps.length := Nat.mod_lt _ hNpos
  by_cases hcase : st.cycleIdx % eps.length = f
  · obtain ⟨e, he⟩ := hfail
    have h1 : eps[st.cycleIdx % eps.length]? = some (Except.error e) := by
      rw [hcase]; exact he
    have hone : (1 : Nat) % eps.length = 1 := Nat.mod_eq_of_lt (by omega)
    have hmod : (st.cycleIdx + 1) % eps.length =
        (st.cycleIdx % eps.length + 1) % eps.length := by
      conv_lhs => rw [Nat.add_mod, hone]
    have hne2 : (st.cycleIdx + 1) % eps.length ≠ f := by
      intro heq
      rw [hmod, ← hcase] at heq
      by_cases hcase2 : st.cycleIdx % eps.length + 1 < eps.length
      · rw [Nat.mod_eq_of_lt hcase2] at heq
        omega
      · have hEq : st.cycleIdx % eps.length + 1 = eps.length := by omega
        rw [hEq, Nat.mod_self] at heq
        omega
    obtain ⟨r, hr⟩ := hok ((st.cycleIdx + 1) % eps.length)
      (Nat.mod_lt _ hNpos) hne2
    have hstep := callAux_first_error eps 3 2 st none e h1
    have hfin := callAux_first_ok eps 3 1
      ⟨st.cycleIdx + 1, bumpAt (fun s => { s with failures := s.failures + 1 })
        (bumpAt (fun s => { s with requests := s.requests + 1 }) st.stats
          (st.cycleIdx % eps.length)) (st.cycleIdx % eps.length)⟩ (some e) r hr
    constructor
    · exact ⟨r, by unfold callWithRetry; rw [hstep]; exact hfin.1⟩
    · unfold callWithRetry
      rw [hstep]
      rw [hfin.2]
      show st.cycleIdx + 1 + 1 - st.cycleIdx ≤ eps.length
      omega
  · obtain ⟨r, hr⟩ := hok (st.cycleIdx % eps.length) hlt hcase
    have hfin := callAux_first_ok eps 3 2 st none r hr
    refine ⟨⟨r, hfin.1⟩, ?_⟩
    unfold callWithRetry
    rw [hfin.2]
    omega

/-- Two endpoints: the first always fails, the second always succeeds. -/
def epsFailover : List (Except String Nat) := [Except.error "down", Except.ok 7]

/-- Fresh pool state for the failover scenario. -/
def poolStartF : PoolState := ⟨0, List.replicate 2 ⟨0, 0⟩⟩

/-- C9 witness: the concrete two-endpoint pool with a dead first endpoint
succeeds within two attempts when starting at the dead endpoint. -/
theorem c9_failover_liveness_witness :
    (∃ r, (callWithRetry epsFailover 3 poolStartF).1 = Except.ok r) ∧
    (callWithRetry epsFailover 3 poolStartF).2.cycleIdx - poolStartF.cycleIdx ≤
      epsFailover.length :=
  c9_failover_liveness epsFailover 0 poolStartF (by decide) (by decide)
    ⟨"down", rfl⟩
    (by
      intro j hj hne
      match j, hj, hne with
      | 1, _, _ => exact ⟨7, rfl⟩
      | 0, _, h => exact absurd rfl h
      | n + 2, hj2, _ => exact absurd hj2 (by show ¬ (n + 2 < 2); omega)
    )

/-! ## Parsed transaction data model

The dictionaries produced by CachedTransactionAnalyzer._parse_meta and
_parse_transaction and consumed by BalanceTracker and TransactionAnalyzer. -/

/-- One entry of meta.pre_token_balances / post_token_balances.  The nested
ui_token_amount dictionary is flattened to the two fields the analyzers read
(ui_amount, decimals); ui_amount is nullable (Python: ui_amount or 0). -/
structure TokenBalance where
  account_index : Nat
  mint : String
  ui_amount : Option Rat
  decimals : Int
deriving Repr, DecidableEq

/-- Transaction meta.  The analyzers inspect meta.err only for truthiness
(meta['err'] is None or a non-empty string there), so err is modelled by the
Boolean it induces.  pre_balances / post_balances are lamport amounts. -/
structure TxMeta where
  err : Bool
  pre_balances : List Int
  post_balances : List Int
  pre_token_balances : List TokenBalance
  post_token_balances : List TokenBalance
deriving Repr, DecidableEq

/-- One parsed transaction dictionary.  account_keys stands for
transaction.message.account_keys (the .get chain with default []).  meta and
block_time are nullable. -/
structure Tx where
  signature : String
  slot : Option Int
  block_time : Option Int
  meta : Option TxMeta
  account_keys : List String
deriving Repr, DecidableEq

/-! ## TransactionCache (cache.py)

The two tables are modelled as row lists in insertion order.  SQLite enforces
UNIQUE on signatures.signature and transactions.signature; ORDER BY is
modelled with a stable insertion sort (a determinization of SQLite ordering
for tied keys).  In SQLite, NULL sorts below every integer, so it comes last
under DESC; a NULL key is therefore modelled as the bottom element. -/

/-- One row of the signatures table. -/
structure SigRow where
  address : String
  signature : String
  slot : Option Int
  block_time : Option Int
  err : Option String
  memo : Option String
deriving Repr, DecidableEq

/-- One signature-information dictionary as passed to save_signatures and
returned by get_cached_signatures.  The err field is stored as its JSON dump
and parsed back on read; that round trip is modelled as the identity. -/
structure SigInfo where
  signature : String
  slot : Option Int
  block_time : Option Int
  err : Option String
  memo : Option String
deriving Repr, DecidableEq

/-- INSERT OR IGNORE INTO signatures: insert-if-absent keyed by the globally
UNIQUE signature column. -/
def insertSig (rows : List SigRow) (r : SigRow) : List SigRow :=
  if rows.any (fun q => q.signature == r.signature) then rows else rows ++ [r]

/-- TransactionCache.save_signatures: one INSERT OR IGNORE per entry, in input
order. -/
def save_signatures (rows : List SigRow) (address : String)
    (sigs : List SigInfo) : List SigRow :=
  sigs.foldl (fun acc s =>
    insertSig acc ⟨address, s.signature, s.slot, s.block_time, s.err, s.memo⟩) rows

/-- Sort key of the ORDER BY block_time DESC clause (NULL is bottom). -/
def btKey (r : SigRow) : WithBot Int := r.block_time.elim ⊥ (fun t => (t : WithBot Int))

/-- Row ordering realised by ORDER BY block_time DESC. -/
def btDescRel (a b : SigRow) : Prop := btKey b ≤ btKey a

instance : DecidableRel btDescRel := fun a b =>
  inferInstanceAs (Decidable (btKey b ≤ btKey a))

instance : IsTotal SigRow btDescRel := ⟨fun a b => le_total (btKey b) (btKey a)⟩

instance : IsTrans SigRow btDescRel := ⟨fun a b c hab hbc => le_trans hbc hab⟩

/-- TransactionCache.get_cached_signatures: SELECT ... WHERE address = ?
ORDER BY block_time DESC, with a LIMIT clause appended only when the Python
limit argument is truthy (not None and not 0). -/
def get_cached_signatures (rows : List SigRow) (address : String)
    (limit : Option Nat) : List SigRow :=
  let sorted := List.insertionSort btDescRel
    (rows.filter (fun r => r.address == address))
  match limit with
  | none => sorted
  | some l => if l = 0 then sorted else sorted.take l

/-- One row of the transactions table (signature UNIQUE). -/
structure TxRow where
  signature : String
  address : String
  slot : Option Int
  block_time : Option Int
  transaction_data : Tx
deriving Repr, DecidableEq

/-- TransactionCache.save_transaction: INSERT OR REPLACE keyed by the UNIQUE
signature column (the conflicting row, if any, is deleted and the new row
inserted); slot and block_time are copied out of the payload. -/
def save_transaction (rows : List TxRow) (address sig : String) (d : Tx) :
    List TxRow :=
  rows.filter (fun r => r.signature != sig) ++ [⟨sig, address, d.slot, d.block_time, d⟩]

/-- TransactionCache.get_cached_transaction: SELECT transaction_data FROM
transactions WHERE signature = ? — the address column is not consulted. -/
def get_cached_transaction (rows : List TxRow) (sig : String) : Option Tx :=
  (rows.find? (fun r => r.signature == sig)).map (fun r => r.transaction_data)

/-! ## CachedTransactionAnalyzer.fetch_transaction_details_cached
(cached_analyzer.py)

The remote source is an oracle from signature to Option Tx; none covers both a
null RPC response.value and an exception swallowed by fetch_with_semaphore.
asyncio.gather preserves task order and batches are processed sequentially, so
the fetch loop is a fold over the uncached entries in input order. -/

/-- Result of one fetch_transaction_details_cached call: the returned list,
the cache contents afterwards, and the signatures for which a remote fetch
was issued. -/
structure FetchOutcome where
  results : List Tx
  cacheRows : List TxRow
  remoteFetched : List String
deriving Repr, DecidableEq

/-- Body of fetch_with_semaphore plus the result-collection loop, for one
uncached entry: on success the body is saved to the cache (save_transaction)
and then appended to the results; on failure the entry is dropped silently. -/
def fetchStep (address : String) (remote : String → Option Tx)
    (out : FetchOutcome) (s : SigInfo) : FetchOutcome :=
  match remote s.signature with
  | some tx =>
    { results := out.results ++ [tx],
      cacheRows := save_transaction out.cacheRows address s.signature tx,
      remoteFetched := out.remoteFetched ++ [s.signature] }
  | none => { out with remoteFetched := out.remoteFetched ++ [s.signature] }

/-- CachedTransactionAnalyzer.fetch_transaction_details_cached: first
partition the input against the cache (already-cached bodies are collected in
input order, without any remote call), then fetch the uncached entries in
order. -/
def fetch_transaction_details_cached (rows : List TxRow) (address : String)
    (sigs : List SigInfo) (remote : String → Option Tx) : FetchOutcome :=
  let cachedResults := sigs.filterMap (fun s => get_cached_transaction rows s.signature)
  let uncached := sigs.filter (fun s => (get_cached_transaction rows s.signature).isNone)
  uncached.foldl (fetchStep address remote) ⟨cachedResults, rows, []⟩

/-! ## Claim C4 (RecordStore.get_refs ordering) -/

/-- Ordering predicate asserted by the claim: sequence_hint (slot) descending,
with a NULL slot last. -/
def slotKey (r : SigRow) : WithBot Int := r.slot.elim ⊥ (fun s => (s : WithBot Int))

/-- A list ordered by slot descending, as the claim asserts of get_refs. -/
def slotDescOrdered (l : List SigRow) : Prop :=
  l.Sorted (fun a b => slotKey b ≤ slotKey a)

/-- Row with the smaller slot but the larger block_time. -/
def rowSlot10 : SigRow := ⟨"acct", "sigA", some 10, some 200, none, none⟩

/-- Row with the larger slot but the smaller block_time. -/
def rowSlot20 : SigRow := ⟨"acct", "sigB", some 20, some 100, none, none⟩

/-- C4 counterexample: the query orders by block_time DESC, not by slot.  With
slots (10, 20) against block_times (200, 100), get_cached_signatures returns
the slot-10 row first, so the result is not ordered by slot descending. -/
theorem c4_order_counterexample :
    get_cached_signatures [rowSlot10, rowSlot20] "acct" none =
      [rowSlot10, rowSlot20] ∧
    ¬ slotDescOrdered (get_cached_signatures [rowSlot10, rowSlot20] "acct" none) := by
  refine ⟨rfl, ?_⟩
  intro h
  have h2 : slotDescOrdered [rowSlot10, rowSlot20] := h
  have h3 := (List.sorted_cons.mp h2).1 rowSlot20 (by simp)
  exact absurd h3 (by decide)

/-- C4 (amended): for every store state, account and limit, the list returned
by get_cached_signatures is ordered by observed_time (block_time) descending
(with NULL block_time last), not by slot. -/
theorem c4_order_amended (rows : List SigRow) (address : String)
    (limit : Option Nat) :
    (get_cached_signatures rows address limit).Sorted btDescRel := by
  have hs : (List.insertionSort btDescRel
      (rows.filter (fun r => r.address == address))).Sorted btDescRel :=
    List.sorted_insertionSort btDescRel _
  unfold get_cached_signatures
  match limit with
  | none => exact hs
  | some l =>
    by_cases h0 : l = 0
    · simpa [h0] using hs
    · simpa [h0] using List.Pairwise.sublist (List.take_sublist l _) hs

/-! ## Claim C5 (idempotent signature upsert) -/

/-- Some row of the store already carries this signature. -/
def hasSig (rows : List SigRow) (s : String) : Prop := ∃ q ∈ rows, q.signature = s

/-- All signatures in the store are pairwise distinct (the UNIQUE column). -/
def sigNodup (rows : List SigRow) : Prop :=
  (rows.map (fun r => r.signature)).Nodup

theorem hasSig_iff_any (rows : List SigRow) (s : String) :
    rows.any (fun q => q.signature == s) = true ↔ hasSig rows s := by
  simp [hasSig, List.any_eq_true]

theorem insertSig_of_hasSig (rows : List SigRow) (r : SigRow)
    (h : hasSig rows r.signature) : insertSig rows r = rows := by
  simp [insertSig, (hasSig_iff_any rows r.signature).mpr h]

theorem hasSig_insertSig_self (rows : List SigRow) (r : SigRow) :
    hasSig (insertSig rows r) r.signature := by
  unfold insertSig
  by_cases hc : rows.any (fun q => q.signature == r.signature) = true
  · simpa [hc] using (hasSig_iff_any rows r.signature).mp hc
  · simp only [hc, if_false]
    exact ⟨r, by simp, rfl⟩

theorem hasSig_insertSig_mono (rows : List SigRow) (r : SigRow) (s : String)
    (h : hasSig rows s) : hasSig (insertSig rows r) s := by
  unfold insertSig
  split
  · exact h
  · obtain ⟨q, hq, hqs⟩ := h
    exact ⟨q, List.mem_append_left _ hq, hqs⟩

theorem hasSig_save_mono (address : String) :
    ∀ (sigs : List SigInfo) (rows : List SigRow) (s : String),
      hasSig rows s → hasSig (save_signatures rows address sigs) s := by
  intro sigs
  induction sigs with
  | nil => intro rows s h; exact h
  | cons a rest ih =>
    intro rows s h
    exact ih _ s (hasSig_insertSig_mono rows _ s h)

theorem hasSig_save_of_mem (address : String) :
    ∀ (sigs : List SigInfo) (rows : List SigRow) (s : SigInfo), s ∈ sigs →
      hasSig (save_signatures rows address sigs) s.signature := by
  intro sigs
  induction sigs with
  | nil => intro rows s h; exact absurd h (List.not_mem_nil s)
  | cons a rest ih =>
    intro rows s hmem
    rcases List.mem_cons.mp hmem with heq | htail
    · subst heq
      exact hasSig_save_mono address rest _ _ (hasSig_insertSig_self rows _)
    · exact ih _ s htail

theorem save_of_all_present (address : String) :
    ∀ (sigs : List SigInfo) (rows : List SigRow),
      (∀ s ∈ sigs, hasSig rows s.signature) →
      save_signatures rows address sigs = rows := by
  intro sigs
  induction sigs with
  | nil => intro rows h; rfl
  | cons a rest ih =>
    intro rows h
    have h0 : insertSig rows ⟨address, a.signature, a.slot, a.block_time, a.err, a.memo⟩
        = rows := insertSig_of_hasSig rows _ (h a (List.mem_cons_self a rest))
    show save_signatures (insertSig rows _) address rest = rows
    rw [h0]
    exact ih rows (fun s hs => h s (List.mem_cons_of_mem a hs))

theorem insertSig_nodup (rows : List SigRow) (r : SigRow) (h : sigNodup rows) :
    sigNodup (insertSig rows r) := by
  unfold insertSig
  by_cases hc : rows.any (fun q => q.signature == r.signature) = true
  · simpa [hc] using h
  · have hnotin : r.signature ∉ rows.map (fun q => q.signature) := by
      intro hmem
      obtain ⟨q, hq, hqs⟩ := List.mem_map.mp hmem
      exact hc ((hasSig_iff_any rows r.signature).mpr ⟨q, hq, hqs⟩)
    rw [if_neg hc]
    unfold sigNodup
    rw [List.map_append]
    simp only [List.map_cons, List.map_nil]
    rw [List.nodup_append]
    refine ⟨h, List.nodup_singleton _, ?_⟩
    intro x hx hx2
    simp only [List.mem_singleton] at hx2
    subst hx2
    exact hnotin hx

theorem save_nodup (address : String) :
    ∀ (sigs : List SigInfo) (rows : List SigRow), sigNodup rows →
      sigNodup (save_signatures rows address sigs) := by
  intro sigs
  induction sigs with
  | nil => intro rows h; exact h
  | cons a rest ih => intro rows h; exact ih _ (insertSig_nodup rows _ h)

theorem get_cached_signatures_nodup (rows : List SigRow) (address : String)
    (limit : Option Nat) (h : sigNodup rows) :
    ((get_cached_signatures rows address limit).map (fun r => r.signature)).Nodup := by
  have h1 : ((rows.filter (fun r => r.address == address)).map
      (fun r => r.signature)).Nodup :=
    List.Nodup.sublist ((rows.filter_sublist).map _) h
  have h2 : ((List.insertionSort btDescRel
      (rows.filter (fun r => r.address == address))).map
      (fun r => r.signature)).Nodup :=
    (((List.perm_insertionSort btDescRel _).map _).nodup_iff).mpr h1
  unfold get_cached_signatures
  match limit with
  | none => exact h2
  | some l =>
    by_cases h0 : l = 0
    · simpa [h0] using h2
    · simp only [h0, if_false]
      exact List.Nodup.sublist ((List.take_sublist l _).map _) h2

/-- C5: save_signatures is an idempotent insert-if-absent keyed by signature:
saving the same list again is a no-op, saving any list whose signatures are
already present is a no-op (overlapping entries are silently ignored), and —
since the UNIQUE signature key is preserved — get_cached_signatures never
returns two entries with the same signature. -/
theorem c5_idempotent_upsert (rows : List SigRow) (address : String)
    (sigs : List SigInfo) (hnd : sigNodup rows) :
    save_signatures (save_signatures rows address sigs) address sigs =
      save_signatures rows address sigs ∧
    (∀ sigs2 : List SigInfo, (∀ s ∈ sigs2, hasSig rows s.signature) →
      save_signatures rows address sigs2 = rows) ∧
    (∀ address2 limit,
      ((get_cached_signatures (save_signatures rows address sigs) address2
        limit).map (fun r => r.signature)).Nodup) := by
  refine ⟨?_, ?_, ?_⟩
  · exact save_of_all_present address sigs _
      (fun s hs => hasSig_save_of_mem address sigs rows s hs)
  · intro sigs2 h
    exact save_of_all_present address sigs2 rows h
  · intro address2 limit
    exact get_cached_signatures_nodup _ address2 limit
      (save_nodup address sigs rows hnd)

/-- First signature-info record of the C5 witness. -/
def sigInfo1 : SigInfo := ⟨"s1", some 1, some 10, none, none⟩

/-- Second signature-info record of the C5 witness (duplicates sigInfo1 once). -/
def sigInfo2 : SigInfo := ⟨"s2", some 2, some 20, none, none⟩

/-- C5 witness: saving a concrete overlapping list twice into an empty store
changes nothing the second time, and the returned signatures are unique. -/
theorem c5_idempotent_upsert_witness :
    save_signatures (save_signatures [] "acct" [sigInfo1, sigInfo2, sigInfo1])
        "acct" [sigInfo1, sigInfo2, sigInfo1] =
      save_signatures [] "acct" [sigInfo1, sigInfo2, sigInfo1] ∧
    ((get_cached_signatures
        (save_signatures [] "acct" [sigInfo1, sigInfo2, sigInfo1]) "acct"
        none).map (fun r => r.signature)).Nodup :=
  have h := c5_idempotent_upsert [] "acct" [sigInfo1, sigInfo2, sigInfo1]
    List.nodup_nil
  ⟨h.1, h.2.2 "acct" none⟩

/-! ## Claims C6 and C8 (transaction bodies) -/

theorem get_save_self (rows : List TxRow) (address sig : String) (d : Tx) :
    get_cached_transaction (save_transaction rows address sig d) sig = some d := by
  unfold get_cached_transaction save_transaction
  rw [List.find?_append]
  have hnone : (rows.filter (fun r => r.signature != sig)).find?
      (fun r => r.signature == sig) = none := by
    rw [List.find?_eq_none]
    intro x hx
    have hke := List.of_mem_filter hx
    simp only [bne_iff_ne, ne_eq] at hke
    simp [hke]
  rw [hnone]
  simp [List.find?]

theorem get_save_other (rows : List TxRow) (address sig x : String) (d : Tx)
    (hne : x ≠ sig) :
    get_cached_transaction (save_transaction rows address sig d) x =
      get_cached_transaction rows x := by
  unfold get_cached_transaction save_transaction
  rw [List.find?_append]
  have hfilter : ∀ (l : List TxRow),
      (l.filter (fun r => r.signature != sig)).find? (fun r => r.signature == x) =
        l.find? (fun r => r.signature == x) := by
    intro l
    induction l with
    | nil => rfl
    | cons a t ih =>
      by_cases hx : a.signature = x
      · have hpass : (a.signature != sig) = true := by simp [hx, hne]
        simp [List.filter_cons, hpass, List.find?_cons, hx, hne, ih]
      · by_cases hpass : (a.signature != sig) = true
        · simp [List.filter_cons, hpass, List.find?_cons, hx, ih]
        · simp [List.filter_cons, hpass, List.find?_cons, hx, ih]
  rw [hfilter]
  cases hfind : rows.find? (fun r => r.signature == x) with
  | some a => simp
  | none =>
    have hb : (sig == x) = false := by
      simp only [beq_eq_false_iff_ne, ne_eq]
      exact Ne.symm hne
    simp [List.find?, hb]

theorem fetch_fold_results (address : String) (remote : String → Option Tx) :
    ∀ (u : List SigInfo) (init : FetchOutcome),
      (u.foldl (fetchStep address remote) init).results =
        init.results ++ u.filterMap (fun s => remote s.signature) := by
  intro u
  induction u with
  | nil => intro init; simp
  | cons s rest ih =>
    intro init
    simp only [List.foldl_cons]
    rw [ih]
    cases hr : remote s.signature with
    | some tx => simp [fetchStep, hr, List.filterMap_cons]
    | none => simp [fetchStep, hr, List.filterMap_cons]

theorem fetch_fold_fetched (address : String) (remote : String → Option Tx) :
    ∀ (u : List SigInfo) (init : FetchOutcome),
      (u.foldl (fetchStep address remote) init).remoteFetched =
        init.remoteFetched ++ u.map (fun s => s.signature) := by
  intro u
  induction u with
  | nil => intro init; simp
  | cons s rest ih =>
    intro init
    simp only [List.foldl_cons]
    rw [ih]
    cases hr : remote s.signature with
    | some tx => simp [fetchStep, hr]
    | none => simp [fetchStep, hr]

theorem fetch_fold_cache (address : String) (remote : String → Option Tx) :
    ∀ (u : List SigInfo) (init : FetchOutcome) (x : String) (b : Tx),
      remote x = some b →
      ((∃ s ∈ u, s.signature = x) ∨
        get_cached_transaction init.cacheRows x = some b) →
      get_cached_transaction
        ((u.foldl (fetchStep address remote) init).cacheRows) x = some b := by
  intro u
  induction u with
  | nil =>
    intro init x b hr h
    rcases h with h | h
    · obtain ⟨s, hs, _⟩ := h; exact absurd hs (List.not_mem_nil s)
    · simpa using h
  | cons s rest ih =>
    intro init x b hr h
    simp only [List.foldl_cons]
    apply ih _ x b hr
    by_cases hsx : s.signature = x
    · right
      show get_cached_transaction (fetchStep address remote init s).cacheRows x = some b
      unfold fetchStep
      rw [hsx, hr]
      simpa using get_save_self init.cacheRows address x b
    · rcases h with hmem | hcache
      · rcases hmem with ⟨q, hq, hqx⟩
        rcases List.mem_cons.mp hq with rfl | htl
        · exact absurd hqx hsx
        · exact Or.inl ⟨q, htl, hqx⟩
      · right
        show get_cached_transaction (fetchStep address remote init s).cacheRows x = some b
        unfold fetchStep
        cases hr2 : remote s.signature with
        | some tx =>
          have := get_save_other init.cacheRows address s.signature x tx
            (fun hcontr => hsx hcontr.symm)
          simpa [this] using hcache
        | none => simpa using hcache

/-- C6: get_cached_transaction is keyed solely by the signature, independently
of which account stored the body: after saving a body while syncing account A,
a fetch_transaction_details_cached call for any account B whose signature list
includes that signature returns the cached body and issues no remote fetch for
it. -/
theorem c6_body_independence (rows : List TxRow) (accountA accountB sig : String)
    (body : Tx) (sigs : List SigInfo) (remote : String → Option Tx)
    (hmem : ∃ s ∈ sigs, s.signature = sig) :
    get_cached_transaction (save_transaction rows accountA sig body) sig =
      some body ∧
    body ∈ (fetch_transaction_details_cached (save_transaction rows accountA sig body)
      accountB sigs remote).results ∧
    sig ∉ (fetch_transaction_details_cached (save_transaction rows accountA sig body)
      accountB sigs remote).remoteFetched := by
  obtain ⟨s0, hs0, hs0sig⟩ := hmem
  have hget : get_cached_transaction (save_transaction rows accountA sig body) sig
      = some body := get_save_self rows accountA sig body
  refine ⟨hget, ?_, ?_⟩
  · unfold fetch_transaction_details_cached
    rw [fetch_fold_results]
    apply List.mem_append_left
    exact List.mem_filterMap.mpr ⟨s0, hs0, by rw [hs0sig, hget]⟩
  · unfold fetch_transaction_details_cached
    rw [fetch_fold_fetched]
    intro hmem2
    simp only [List.nil_append] at hmem2
    obtain ⟨q, hq, hqsig⟩ := List.mem_map.mp hmem2
    have hqu := List.of_mem_filter hq
    rw [hqsig] at hqu
    rw [hget] at hqu
    simp at hqu

/-- Remote oracle that always fails (the C6 witness needs no remote fetch). -/
def remoteNone : String → Option Tx := fun _ => none

/-- Concrete body for the C6 witness. -/
def bodyW : Tx := ⟨"w1", some 5, some 50, none, []⟩

/-- Signature-info entry referencing the body of the C6 witness. -/
def sigInfoW : SigInfo := ⟨"w1", some 5, some 50, none, none⟩

/-- C6 witness: a body saved under account A is returned for account B with no
remote fetch issued. -/
theorem c6_body_independence_witness :
    get_cached_transaction (save_transaction [] "A" "w1" bodyW) "w1" =
      some bodyW ∧
    bodyW ∈ (fetch_transaction_details_cached (save_transaction [] "A" "w1" bodyW)
      "B" [sigInfoW] remoteNone).results ∧
    "w1" ∉ (fetch_transaction_details_cached (save_transaction [] "A" "w1" bodyW)
      "B" [sigInfoW] remoteNone).remoteFetched :=
  c6_body_independence [] "A" "B" "w1" bodyW [sigInfoW] remoteNone
    ⟨sigInfoW, by simp, rfl⟩

theorem length_filterMap_eq_length_filter {α β : Type} (f : α → Option β) :
    ∀ l : List α,
      (l.filterMap f).length = (l.filter (fun a => (f a).isSome)).length := by
  intro l
  induction l with
  | nil => rfl
  | cons a t ih =>
    cases hf : f a with
    | some b => simp [List.filterMap_cons, List.filter_cons, hf, ih]
    | none => simp [List.filterMap_cons, List.filter_cons, hf, ih]

/-- C8: fetch_transaction_details_cached returns exactly the already-cached
bodies (in input order) followed by the bodies of the uncached entries whose
individual fetch succeeded (failed fetches are dropped silently and do not
abort the batch); the returned count is the cached count plus the success
count; and every successfully fetched body is persisted, so it is afterwards
retrievable via get_cached_transaction. -/
theorem c8_partial_fetch (rows : List TxRow) (address : String)
    (sigs : List SigInfo) (remote : String → Option Tx) :
    (fetch_transaction_details_cached rows address sigs remote).results =
      sigs.filterMap (fun s => get_cached_transaction rows s.signature) ++
      (sigs.filter (fun s => (get_cached_transaction rows s.signature).isNone)).filterMap
        (fun s => remote s.signature) ∧
    (fetch_transaction_details_cached rows address sigs remote).results.length =
      (sigs.filter
        (fun s => (get_cached_transaction rows s.signature).isSome)).length +
      ((sigs.filter
        (fun s => (get_cached_transaction rows s.signature).isNone)).filter
        (fun s => (remote s.signature).isSome)).length ∧
    (∀ s ∈ sigs, ∀ b : Tx, get_cached_transaction rows s.signature = none →
      remote s.signature = some b →
      get_cached_transaction
        (fetch_transaction_details_cached rows address sigs remote).cacheRows
        s.signature = some b) := by
  have hres : (fetch_transaction_details_cached rows address sigs remote).results =
      sigs.filterMap (fun s => get_cached_transaction rows s.signature) ++
      (sigs.filter
        (fun s => (get_cached_transaction rows s.signature).isNone)).filterMap
        (fun s => remote s.signature) := by
    unfold fetch_transaction_details_cached
    rw [fetch_fold_results]
  refine ⟨hres, ?_, ?_⟩
  · rw [hres, List.length_append]
    rw [length_filterMap_eq_length_filter, length_filterMap_eq_length_filter]
  · intro s hs b hnone hremote
    unfold fetch_transaction_details_cached
    apply fetch_fold_cache address remote _ _ s.signature b hremote
    left
    exact ⟨s, List.mem_filter.mpr ⟨hs, by simp [hnone]⟩, rfl⟩

/-- Body already in the cache before the C8 witness call. -/
def bodyCached : Tx := ⟨"c1", some 1, some 10, none, []⟩

/-- Body served by the remote oracle during the C8 witness call. -/
def bodyFetched : Tx := ⟨"c2", some 2, some 20, none, []⟩

/-- Cache contents before the C8 witness call. -/
def rowsC8 : List TxRow := [⟨"c1", "A", some 1, some 10, bodyCached⟩]

/-- Remote oracle of the C8 witness: serves c2, fails on everything else. -/
def remoteC8 : String → Option Tx := fun s => if s = "c2" then some bodyFetched else none

/-- Signature-info entry for the cached body. -/
def sigInfoC1 : SigInfo := ⟨"c1", some 1, some 10, none, none⟩

/-- Signature-info entry for the remotely served body. -/
def sigInfoC2 : SigInfo := ⟨"c2", some 2, some 20, none, none⟩

/-- Signature-info entry whose fetch fails. -/
def sigInfoC3 : SigInfo := ⟨"c3", some 3, some 30, none, none⟩

/-- C8 witness: with one cached body, one fetchable body and one failing
fetch, exactly the two available bodies are returned and the fetched one is
persisted. -/
theorem c8_partial_fetch_witness :
    (fetch_transaction_details_cached rowsC8 "A" [sigInfoC1, sigInfoC2, sigInfoC3]
      remoteC8).results = [bodyCached, bodyFetched] ∧
    get_cached_transaction
      (fetch_transaction_details_cached rowsC8 "A" [sigInfoC1, sigInfoC2, sigInfoC3]
        remoteC8).cacheRows "c2" = some bodyFetched :=
  have h := c8_partial_fetch rowsC8 "A" [sigInfoC1, sigInfoC2, sigInfoC3] remoteC8
  ⟨h.1.trans (by decide), h.2.2 sigInfoC2 (by simp) bodyFetched rfl rfl⟩

/-! ## BalanceTracker.calculate_balance_history (balance_tracker.py)

Both passes walk the same filtered, block_time-ascending transaction list.
Working balances are defaultdict(float) — modelled as total functions
String → Rat with default 0.  The per-transaction dictionaries
{tb['account_index']: tb for tb in ...} give the last entry for a duplicate
index.  The current_balances argument is an optional dict, flattened to
(mint, ui_amount) pairs with the unique-key lookup of a Python dict. -/

/-- Python truthiness of tx.get('block_time'): None and 0 are falsy. -/
def btTruthy : Option Int → Bool
  | none => false
  | some t => t != 0

/-- Python truthiness of the optional current_balances dict (None and the
empty dict are falsy). -/
def cbTruthy : Option (List (String × Rat)) → Bool
  | none => false
  | some l => !l.isEmpty

/-- Key lookup in current_balances (dict keys are unique, first match). -/
def cbLookup (cb : Option (List (String × Rat))) (mint : String) : Option Rat :=
  match cb with
  | none => none
  | some l => l.lookup mint

/-- The dictionary {tb['account_index']: tb for tb in l}: on duplicate
indices the later entry wins. -/
def idxLookup (l : List TokenBalance) (i : Nat) : Option TokenBalance :=
  (l.filter (fun tb => tb.account_index == i)).getLast?

/-- float(ui_amount or 0): a null ui_amount counts as zero. -/
def uiAmt (tb : TokenBalance) : Rat := tb.ui_amount.getD 0

/-- Indices of account_keys matching the target case-insensitively
(key.lower() == target_address.lower()). -/
def targetIndices (keys : List String) (target : String) : List Nat :=
  (keys.enum.filter (fun p => p.2.toLower == target.toLower)).map (fun p => p.1)

/-- Lamports to SOL: value / 1e9. -/
def lamportsToSol (v : Int) : Rat := (v : Rat) / 1000000000

/-- State of the backward pass inside one transaction: working balances and
the per-transaction processed_tokens set. -/
structure BackTxSt where
  bal : String → Rat
  processed : List String

/-- Token-balance part of the backward-pass loop body for one target index
(lines 71-99). -/
def backTokenPart (cb : Option (List (String × Rat))) (meta : TxMeta)
    (st : BackTxSt) (idx : Nat) : BackTxSt :=
  match idxLookup meta.post_token_balances idx with
  | some post =>
    let mint := post.mint
    if mint ∈ st.processed then st
    else
      let post_amount := uiAmt post
      let newBal :=
        if cbTruthy cb ∧ (cbLookup cb mint).isSome then post_amount
        else
          match idxLookup meta.pre_token_balances idx with
          | some pre => st.bal mint - (post_amount - uiAmt pre)
          | none => st.bal mint - post_amount
      { bal := fun m => if m = mint then newBal else st.bal m,
        processed := mint :: st.processed }
  | none =>
    match idxLookup meta.pre_token_balances idx with
    | some pre =>
      let mint := pre.mint
      if mint ∈ st.processed then st
      else
        { bal := fun m => if m = mint then st.bal mint + uiAmt pre else st.bal m,
          processed := mint :: st.processed }
    | none => st

/-- SOL part of the backward-pass loop body for one target index
(lines 101-115). -/
def backSolPart (cb : Option (List (String × Rat))) (meta : TxMeta)
    (st : BackTxSt) (idx : Nat) : BackTxSt :=
  if idx < meta.post_balances.length then
    if "SOL" ∈ st.processed then st
    else
      let post_sol := lamportsToSol (meta.post_balances.getD idx 0)
      let newBal :=
        if cbTruthy cb ∧ (cbLookup cb "SOL").isSome then post_sol
        else
          if idx < meta.pre_balances.length then
            st.bal "SOL" - (post_sol - lamportsToSol (meta.pre_balances.getD idx 0))
          else st.bal "SOL" - post_sol
      { bal := fun m => if m = "SOL" then newBal else st.bal m,
        processed := "SOL" :: st.processed }
  else st

/-- Backward-pass loop body for one target index. -/
def backStepIdx (cb : Option (List (String × Rat))) (meta : TxMeta)
    (st : BackTxSt) (idx : Nat) : BackTxSt :=
  backSolPart cb meta (backTokenPart cb meta st idx) idx

/-- Backward-pass loop body for one transaction (lines 44-115): transactions
without a meta or with a truthy meta error are skipped. -/
def backStepTx (target : String) (cb : Option (List (String × Rat)))
    (bal : String → Rat) (tx : Tx) : String → Rat :=
  match tx.meta with
  | none => bal
  | some meta =>
    if meta.err then bal
    else
      ((targetIndices tx.account_keys target).foldl (backStepIdx cb meta)
        ⟨bal, []⟩).bal

/-- Ascending block_time ordering of sorted(..., key=lambda x: x['block_time']).
Python list.sort is stable, as is insertionSort. -/
def btAscRel (a b : Tx) : Prop := a.block_time.getD 0 ≤ b.block_time.getD 0

instance : DecidableRel btAscRel := fun a b =>
  inferInstanceAs (Decidable (a.block_time.getD 0 ≤ b.block_time.getD 0))

/-- Lines 32-35: keep transactions with truthy block_time, ascending. -/
def sortedTxs (transactions : List Tx) : List Tx :=
  List.insertionSort btAscRel
    (transactions.filter (fun tx => btTruthy tx.block_time))

/-- Working balances after seeding from current_balances (lines 40-42,
defaultdict default 0) and replaying the backward pass newest to oldest:
the anchor from which the forward pass replays. -/
def anchorBalances (transactions : List Tx) (target : String)
    (cb : Option (List (String × Rat))) : String → Rat :=
  (sortedTxs transactions).reverse.foldl (backStepTx target cb)
    (fun m => (cbLookup cb m).getD 0)

/-- One row of a per-mint balance history: timestamp (raw block_time),
balance after the change, the change, and the transaction signature. -/
structure BalancePoint where
  timestamp : Int
  balance : Rat
  change : Rat
  txsig : String
deriving Repr, DecidableEq

/-- State of the forward pass inside one transaction: working balances,
per-mint histories, and the per-transaction recorded_changes set. -/
structure FwdTxSt where
  bal : String → Rat
  hist : String → List BalancePoint
  recorded : List String

/-- Record one change (for example lines 155-164): add it to the working
balance, append the point carrying the new balance, mark the mint recorded. -/
def pushPoint (st : FwdTxSt) (mint : String) (ts : Int) (sg : String)
    (c : Rat) : FwdTxSt :=
  let newBal := st.bal mint + c
  { bal := fun m => if m = mint then newBal else st.bal m,
    hist := fun m => if m = mint then st.hist m ++ [⟨ts, newBal, c, sg⟩]
      else st.hist m,
    recorded := mint :: st.recorded }

/-- Token-balance part of the forward-pass loop body for one target index
(lines 144-196). -/
def fwdTokenPart (meta : TxMeta) (ts : Int) (sg : String) (st : FwdTxSt)
    (idx : Nat) : FwdTxSt :=
  match idxLookup meta.pre_token_balances idx,
      idxLookup meta.post_token_balances idx with
  | some pre, some post =>
    if pre.mint = post.mint then
      if pre.mint ∈ st.recorded then st
      else pushPoint st pre.mint ts sg (uiAmt post - uiAmt pre)
    else st
  | none, some post =>
    if post.mint ∈ st.recorded then st
    else pushPoint st post.mint ts sg (uiAmt post)
  | some pre, none =>
    if pre.mint ∈ st.recorded then st
    else pushPoint st pre.mint ts sg (-(uiAmt pre))
  | none, none => st

/-- SOL part of the forward-pass loop body for one target index
(lines 198-212): requires both balance arrays to cover the index and a
non-zero change. -/
def fwdSolPart (meta : TxMeta) (ts : Int) (sg : String) (st : FwdTxSt)
    (idx : Nat) : FwdTxSt :=
  if idx < meta.pre_balances.length ∧ idx < meta.post_balances.length then
    let change := lamportsToSol (meta.post_balances.getD idx 0) -
      lamportsToSol (meta.pre_balances.getD idx 0)
    if "SOL" ∉ st.recorded ∧ change ≠ 0 then pushPoint st "SOL" ts sg change
    else st
  else st

/-- Forward-pass loop body for one target index. -/
def fwdStepIdx (meta : TxMeta) (ts : Int) (sg : String) (st : FwdTxSt)
    (idx : Nat) : FwdTxSt :=
  fwdSolPart meta ts sg (fwdTokenPart meta ts sg st idx) idx

/-- Outer forward-pass state: working balances and per-mint histories. -/
structure FwdSt where
  bal : String → Rat
  hist : String → List BalancePoint

/-- Forward-pass loop body for one transaction (lines 117-212); skips the
same transactions as the backward pass and resets recorded_changes. -/
def fwdStepTx (target : String) (st : FwdSt) (tx : Tx) : FwdSt :=
  match tx.meta with
  | none => st
  | some meta =>
    if meta.err then st
    else
      let inner := (targetIndices tx.account_keys target).foldl
        (fwdStepIdx meta (tx.block_time.getD 0) tx.signature)
        ⟨st.bal, st.hist, []⟩
      ⟨inner.bal, inner.hist⟩

/-- BalanceTracker.calculate_balance_history: sort ascending, replay the
backward pass to obtain the anchor balances, then replay forward appending
one point per recorded change.  Per mint the appended history is already
ascending in timestamp, so the final DataFrame.sort_values on it is the
identity (modelled as such); a mint with no points corresponds to a mint
absent from the returned dictionary. -/
def calculate_balance_history (transactions : List Tx) (target : String)
    (cb : Option (List (String × Rat))) : String → List BalancePoint :=
  ((sortedTxs transactions).foldl (fwdStepTx target)
    ⟨anchorBalances transactions target cb, fun _ => []⟩).hist

/-! Replay-consistency invariant of the forward pass. -/

/-- Starting from balance b, every point's balance equals the previous
balance plus its own change. -/
def chainFrom (b : Rat) : List BalancePoint → Prop
  | [] => True
  | p :: rest => p.balance = b + p.change ∧ chainFrom p.balance rest

/-- Balance after the last point, or the start value for an empty history. -/
def lastBal (b : Rat) (l : List BalancePoint) : Rat :=
  (l.getLast?).elim b (fun p => p.balance)

theorem lastBal_append (b : Rat) (l : List BalancePoint) (p : BalancePoint) :
    lastBal b (l ++ [p]) = p.balance := by
  simp [lastBal, List.getLast?_concat]

theorem lastBal_cons (b : Rat) (q : BalancePoint) (rest : List BalancePoint) :
    lastBal b (q :: rest) = lastBal q.balance rest := by
  cases rest with
  | nil => simp [lastBal]
  | cons r t =>
    simp only [lastBal, List.getLast?_cons_cons]
    cases hgl : (r :: t).getLast? with
    | none => simp at hgl
    | some p => rfl

theorem chainFrom_append :
    ∀ (l : List BalancePoint) (b : Rat) (p : BalancePoint), chainFrom b l →
      p.balance = lastBal b l + p.change → chainFrom b (l ++ [p]) := by
  intro l
  induction l with
  | nil =>
    intro b p h hc
    exact ⟨by simpa [lastBal] using hc, trivial⟩
  | cons q rest ih =>
    intro b p h hc
    rw [lastBal_cons] at hc
    exact ⟨h.1, ih q.balance p h.2 hc⟩

/-- The forward-pass invariant: each mint's history chains from its anchor
balance and the working balance equals the balance after the last point. -/
def FwdInv (anchor : String → Rat) (bal : String → Rat)
    (hist : String → List BalancePoint) : Prop :=
  ∀ m, chainFrom (anchor m) (hist m) ∧ bal m = lastBal (anchor m) (hist m)

theorem fwdInv_pushPoint (anchor : String → Rat) (st : FwdTxSt) (mint : String)
    (ts : Int) (sg : String) (c : Rat) (h : FwdInv anchor st.bal st.hist) :
    FwdInv anchor (pushPoint st mint ts sg c).bal
      (pushPoint st mint ts sg c).hist := by
  intro m
  have hc := (h m).1
  have hb := (h m).2
  simp only [pushPoint]
  split_ifs with hm
  · constructor
    · refine chainFrom_append _ _ _ hc ?_
      show st.bal mint + c = lastBal (anchor m) (st.hist m) + c
      rw [← hm, hb]
    · rw [lastBal_append]
  · exact ⟨hc, hb⟩

theorem fwdInv_fwdTokenPart (anchor : String → Rat) (meta : TxMeta) (ts : Int)
    (sg : String) (st : FwdTxSt) (idx : Nat) (h : FwdInv anchor st.bal st.hist) :
    FwdInv anchor (fwdTokenPart meta ts sg st idx).bal
      (fwdTokenPart meta ts sg st idx).hist := by
  unfold fwdTokenPart
  rcases hpre : idxLookup meta.pre_token_balances idx with _ | pre <;>
    rcases hpost : idxLookup meta.post_token_balances idx with _ | post <;>
      simp only [hpre, hpost]
  · exact h
  · split_ifs with h1
    · exact h
    · exact fwdInv_pushPoint anchor st _ ts sg _ h
  · split_ifs with h1
    · exact h
    · exact fwdInv_pushPoint anchor st _ ts sg _ h
  · split_ifs with h1 h2
    · exact h
    · exact fwdInv_pushPoint anchor st _ ts sg _ h
    · exact h

theorem fwdInv_fwdSolPart (anchor : String → Rat) (meta : TxMeta) (ts : Int)
    (sg : String) (st : FwdTxSt) (idx : Nat) (h : FwdInv anchor st.bal st.hist) :
    FwdInv anchor (fwdSolPart meta ts sg st idx).bal
      (fwdSolPart meta ts sg st idx).hist := by
  simp only [fwdSolPart]
  split_ifs with h1 h2
  · exact fwdInv_pushPoint anchor st _ ts sg _ h
  · exact h
  · exact h

theorem fwdInv_fwdStepIdx (anchor : String → Rat) (meta : TxMeta) (ts : Int)
    (sg : String) (st : FwdTxSt) (idx : Nat) (h : FwdInv anchor st.bal st.hist) :
    FwdInv anchor (fwdStepIdx meta ts sg st idx).bal
      (fwdStepIdx meta ts sg st idx).hist :=
  fwdInv_fwdSolPart anchor meta ts sg _ idx
    (fwdInv_fwdTokenPart anchor meta ts sg st idx h)

theorem foldl_preserve {σ α : Type} (P : σ → Prop) (f : σ → α → σ)
    (hstep : ∀ s a, P s → P (f s a)) :
    ∀ (l : List α) (s : σ), P s → P (l.foldl f s) := by
  intro l
  induction l with
  | nil => intro s h; exact h
  | cons a t ih => intro s h; exact ih _ (hstep s a h)

theorem fwdInv_fwdStepTx (anchor : String → Rat) (target : String) (st : FwdSt)
    (tx : Tx) (h : FwdInv anchor st.bal st.hist) :
    FwdInv anchor (fwdStepTx target st tx).bal (fwdStepTx target st tx).hist := by
  unfold fwdStepTx
  rcases hm : tx.meta with _ | meta <;> simp only
  · exact h
  · split_ifs with herr
    · exact h
    · exact foldl_preserve (fun (s : FwdTxSt) => FwdInv anchor s.bal s.hist)
        (fwdStepIdx meta (tx.block_time.getD 0) tx.signature)
        (fun s a hs => fwdInv_fwdStepIdx anchor meta _ _ s a hs)
        (targetIndices tx.account_keys target) ⟨st.bal, st.hist, []⟩ h

/-- Every history produced by calculate_balance_history chains from the
anchor balance left by the backward pass. -/
theorem calc_balance_chain (transactions : List Tx) (target : String)
    (cb : Option (List (String × Rat))) (m : String) :
    chainFrom (anchorBalances transactions target cb m)
      (calculate_balance_history transactions target cb m) := by
  have h := foldl_preserve
    (fun (s : FwdSt) => FwdInv (anchorBalances transactions target cb) s.bal s.hist)
    (fwdStepTx target)
    (fun s a hs => fwdInv_fwdStepTx _ target s a hs)
    (sortedTxs transactions)
    ⟨anchorBalances transactions target cb, fun _ => []⟩
    (fun m2 => ⟨trivial, rfl⟩)
  exact (h m).1

theorem chainFrom_getElem :
    ∀ (l : List BalancePoint) (b : Rat), chainFrom b l →
      ∀ (i : Nat) (p : BalancePoint), l[i]? = some p →
        p.balance = b + ((l.take (i + 1)).map (fun q => q.change)).sum := by
  intro l
  induction l with
  | nil => intro b hc i p hp; simp at hp
  | cons q rest ih =>
    intro b hc i p hp
    cases i with
    | zero =>
      simp only [List.getElem?_cons_zero, Option.some_inj] at hp
      subst hp
      simp [hc.1]
    | succ n =>
      have hp2 : rest[n]? = some p := by simpa using hp
      have hrec := ih q.balance hc.2 n p hp2
      rw [hrec, hc.1]
      simp only [List.take_succ_cons, List.map_cons, List.sum_cons]
      ring

theorem chainFrom_head :
    ∀ (l : List BalancePoint) (b : Rat), chainFrom b l →
      ∀ p : BalancePoint, l[0]? = some p → p.balance - p.change = b := by
  intro l b hc p hp
  cases l with
  | nil => simp at hp
  | cons q rest =>
    simp only [List.getElem?_cons_zero, Option.some_inj] at hp
    subst hp
    have h1 := hc.1
    linarith

theorem chainFrom_getLast :
    ∀ (l : List BalancePoint) (b : Rat), chainFrom b l →
      ∀ p : BalancePoint, l.getLast? = some p →
        p.balance = b + (l.map (fun q => q.change)).sum := by
  intro l
  induction l with
  | nil => intro b hc p hp; simp at hp
  | cons q rest ih =>
    intro b hc p hp
    cases rest with
    | nil =>
      simp only [List.getLast?_singleton, Option.some_inj] at hp
      subst hp
      simp [hc.1]
    | cons r t =>
      rw [List.getLast?_cons_cons] at hp
      have hrec := ih q.balance hc.2 p hp
      rw [hrec, hc.1]
      simp only [List.map_cons, List.sum_cons]
      ring

/-- C2: for every reconstructed series and asset, the sum of the change
values of points 0 through i, plus the initial anchor (the first point's
balance_after minus its delta), equals point i's balance_after exactly. -/
theorem c2_replay_consistency (transactions : List Tx) (target : String)
    (cb : Option (List (String × Rat))) (mint : String) (i : Nat)
    (p0 p : BalancePoint)
    (h0 : (calculate_balance_history transactions target cb mint)[0]? = some p0)
    (hi : (calculate_balance_history transactions target cb mint)[i]? = some p) :
    p0.balance - p0.change +
      (((calculate_balance_history transactions target cb mint).take (i + 1)).map
        (fun q => q.change)).sum = p.balance := by
  have hc := calc_balance_chain transactions target cb mint
  have hb := chainFrom_head _ _ hc p0 h0
  have hgi := chainFrom_getElem _ _ hc i p hi
  rw [hb, hgi]

/-- C1 (amended): the last point's balance_after equals the backward-pass
anchor balance plus the sum of all deltas of the series.  For an asset
present in current_balances the backward pass overwrites its working balance
with each transaction's post amount (ending at the oldest), so that anchor —
and hence the last balance_after — need not equal current_balances[asset]. -/
theorem c1_snapshot_anchoring_amended (transactions : List Tx) (target : String)
    (cb : Option (List (String × Rat))) (mint : String) (p : BalancePoint)
    (hlast : (calculate_balance_history transactions target cb mint).getLast? =
      some p) :
    p.balance = anchorBalances transactions target cb mint +
      ((calculate_balance_history transactions target cb mint).map
        (fun q => q.change)).sum :=
  chainFrom_getLast _ _ (calc_balance_chain transactions target cb mint) p hlast

/-! ## Claims C1, C2 and C10 (BalanceReconstructor) -/

/-- A single transaction on asset A: pre amount 5, post amount 13, for an
account that holds A in the current snapshot. -/
def txC1 : Tx :=
  ⟨"s1", none, some 100,
    some ⟨false, [], [], [⟨0, "A", some 5, 6⟩], [⟨0, "A", some 13, 6⟩]⟩,
    ["addr"]⟩

/-- Snapshot holding 13 of asset A, consistent with txC1's post amount. -/
def snapC1 : Option (List (String × Rat)) := some [("A", 13)]

theorem calcC1_eval :
    calculate_balance_history [txC1] "addr" snapC1 "A" = [⟨100, 21, 8, "s1"⟩] := by
  norm_num [calculate_balance_history, sortedTxs, anchorBalances, backStepTx,
    backStepIdx, backTokenPart, backSolPart, fwdStepTx, fwdStepIdx, fwdTokenPart,
    fwdSolPart, pushPoint, targetIndices, idxLookup, uiAmt, cbTruthy, cbLookup,
    btTruthy, btAscRel, lamportsToSol, txC1, snapC1, List.insertionSort,
    List.orderedInsert, List.enum, List.enumFrom, List.lookup, List.filter,
    List.foldl]

/-- C1 counterexample: asset A is present in the snapshot with amount 13 and
its series is non-empty, yet the last (only) point's balance_after is 21, not
13.  The backward pass overwrites snapshot-asset balances with each
transaction's post amount, ending at the oldest transaction's post amount,
and the forward pass then re-applies the oldest transaction's delta. -/
theorem c1_snapshot_anchoring_counterexample :
    cbLookup snapC1 "A" = some 13 ∧
    calculate_balance_history [txC1] "addr" snapC1 "A" = [⟨100, 21, 8, "s1"⟩] ∧
    ((calculate_balance_history [txC1] "addr" snapC1 "A").getLast?).map
      (fun p => p.balance) ≠ some 13 := by
  refine ⟨rfl, calcC1_eval, ?_⟩
  rw [calcC1_eval]
  intro hcontr
  simp only [List.getLast?_singleton, Option.map_some] at hcontr
  have : (21 : Rat) = 13 := by injection hcontr
  norm_num at this

/-- C1 amended witness: on the concrete one-transaction input the last point's
balance_after equals the backward-pass anchor plus the sum of deltas. -/
theorem c1_snapshot_anchoring_amended_witness :
    (calculate_balance_history [txC1] "addr" snapC1 "A").getLast? =
      some ⟨100, 21, 8, "s1"⟩ ∧
    (21 : Rat) = anchorBalances [txC1] "addr" snapC1 "A" +
      ((calculate_balance_history [txC1] "addr" snapC1 "A").map
        (fun q => q.change)).sum := by
  have hlast : (calculate_balance_history [txC1] "addr" snapC1 "A").getLast? =
      some ⟨100, 21, 8, "s1"⟩ := by rw [calcC1_eval]; rfl
  exact ⟨hlast, c1_snapshot_anchoring_amended [txC1] "addr" snapC1 "A" _ hlast⟩

/-- Older transaction of the C2 witness: asset B goes 0 to 10. -/
def txB1 : Tx :=
  ⟨"t1", none, some 100,
    some ⟨false, [], [], [⟨0, "B", some 0, 6⟩], [⟨0, "B", some 10, 6⟩]⟩,
    ["w"]⟩

/-- Newer transaction of the C2 witness: asset B goes 10 to 8. -/
def txB2 : Tx :=
  ⟨"t2", none, some 200,
    some ⟨false, [], [], [⟨0, "B", some 10, 6⟩], [⟨0, "B", some 8, 6⟩]⟩,
    ["w"]⟩

theorem calcC2_eval :
    calculate_balance_history [txB2, txB1] "w" none "B" =
      [⟨100, 2, 10, "t1"⟩, ⟨200, 0, -2, "t2"⟩] := by
  norm_num [calculate_balance_history, sortedTxs, anchorBalances, backStepTx,
    backStepIdx, backTokenPart, backSolPart, fwdStepTx, fwdStepIdx, fwdTokenPart,
    fwdSolPart, pushPoint, targetIndices, idxLookup, uiAmt, cbTruthy, cbLookup,
    btTruthy, btAscRel, lamportsToSol, txB1, txB2, List.insertionSort,
    List.orderedInsert, List.enum, List.enumFrom, List.lookup, List.filter,
    List.foldl]

/-- C2 witness: on a concrete two-transaction series (given unsorted), the
anchor plus the sum of the first two deltas reproduces the second
balance_after. -/
theorem c2_replay_consistency_witness :
    (calculate_balance_history [txB2, txB1] "w" none "B")[0]? =
      some ⟨100, 2, 10, "t1"⟩ ∧
    (calculate_balance_history [txB2, txB1] "w" none "B")[1]? =
      some ⟨200, 0, -2, "t2"⟩ ∧
    (2 : Rat) - 10 +
      (((calculate_balance_history [txB2, txB1] "w" none "B").take 2).map
        (fun q => q.change)).sum = 0 := by
  have h0 : (calculate_balance_history [txB2, txB1] "w" none "B")[0]? =
      some ⟨100, 2, 10, "t1"⟩ := by rw [calcC2_eval]; rfl
  have h1 : (calculate_balance_history [txB2, txB1] "w" none "B")[1]? =
      some ⟨200, 0, -2, "t2"⟩ := by rw [calcC2_eval]; rfl
  exact ⟨h0, h1, c2_replay_consistency [txB2, txB1] "w" none "B" 1
    ⟨100, 2, 10, "t1"⟩ ⟨200, 0, -2, "t2"⟩ h0 h1⟩

/-- A transaction the reconstruction must ignore: null block_time, absent
meta, or truthy meta error. -/
def badTx (t : Tx) : Prop :=
  btTruthy t.block_time = false ∨ t.meta = none ∨
    (∃ m, t.meta = some m ∧ m.err = true)

/-- C10: a transaction with null (or zero) block_time never enters the
processed list at all, and a transaction without meta or with a meta error is
a no-op of both the backward and the forward pass: it emits no point and
leaves every working balance unchanged. -/
theorem c10_skip_invalid (t : Tx) (target : String)
    (cb : Option (List (String × Rat))) (h : badTx t) :
    (btTruthy t.block_time = false → ∀ transactions : List Tx,
      t ∉ sortedTxs transactions) ∧
    (btTruthy t.block_time = true →
      (∀ bal : String → Rat, backStepTx target cb bal t = bal) ∧
      (∀ st : FwdSt, fwdStepTx target st t = st)) := by
  constructor
  · intro hbt transactions hmem
    unfold sortedTxs at hmem
    have hmem2 := ((List.perm_insertionSort btAscRel _).mem_iff).mp hmem
    have hfil := List.of_mem_filter hmem2
    rw [hbt] at hfil
    exact Bool.false_ne_true hfil
  · intro hbt
    have hmeta : t.meta = none ∨ (∃ m, t.meta = some m ∧ m.err = true) := by
      rcases h with h | h | h
      · rw [hbt] at h; exact absurd h (by simp)
      · exact Or.inl h
      · exact Or.inr h
    rcases hmeta with hm | ⟨m, hm, herr⟩
    · exact ⟨fun bal => by simp [backStepTx, hm],
        fun st => by simp [fwdStepTx, hm]⟩
    · exact ⟨fun bal => by simp [backStepTx, hm, herr],
        fun st => by simp [fwdStepTx, hm, herr]⟩

/-- Transaction with truthy block_time but no meta. -/
def txBadMeta : Tx := ⟨"sb", none, some 7, none, ["k"]⟩

/-- C10 witness: the concrete meta-less transaction changes neither pass. -/
theorem c10_skip_invalid_witness :
    backStepTx "k" none (fun _ => 0) txBadMeta = (fun _ => 0) ∧
    fwdStepTx "k" ⟨fun _ => 0, fun _ => []⟩ txBadMeta =
      ⟨fun _ => 0, fun _ => []⟩ :=
  have h := c10_skip_invalid txBadMeta "k" none (Or.inr (Or.inl rfl))
  ⟨(h.2 rfl).1 _, (h.2 rfl).2 _⟩

/-! ## TransactionAnalyzer.analyze_token_flows (transaction_analyzer.py)

token_flows is a defaultdict whose default entry is all-zero totals with
decimals 9 — modelled as a total function String → FlowTotals.  The explicit
re-initialisation of the SOL entry in the source (lines 171-178) writes the
same default the defaultdict would supply, so it is invisible here.
Transactions without meta or with a truthy meta error are skipped; there is
no block_time filter and no per-transaction deduplication in this function. -/

/-- Per-asset totals: received, sent, net, count, decimals. -/
structure FlowTotals where
  total_received : Rat
  total_sent : Rat
  net_change : Rat
  transaction_count : Nat
  decimals : Int
deriving Repr, DecidableEq

/-- The defaultdict default entry (lines 89-95). -/
def flowsDefault : FlowTotals := ⟨0, 0, 0, 0, 9⟩

/-- Token-balance part of the loop body for one target index
(lines 119-159). -/
def flowTokenStep (meta : TxMeta) (fl : String → FlowTotals) (idx : Nat) :
    String → FlowTotals :=
  match idxLookup meta.pre_token_balances idx,
      idxLookup meta.post_token_balances idx with
  | some pre, some post =>
    if pre.mint = post.mint then
      let change := uiAmt post - uiAmt pre
      let cur := fl pre.mint
      let cur1 := { cur with
        decimals := pre.decimals
        transaction_count := cur.transaction_count + 1 }
      let cur2 :=
        if change > 0 then
          { cur1 with total_received := cur1.total_received + change }
        else if change < 0 then
          { cur1 with total_sent := cur1.total_sent + (-change) }
        else cur1
      let cur3 := { cur2 with net_change := cur2.net_change + change }
      fun m => if m = pre.mint then cur3 else fl m
    else fl
  | none, some post =>
    let amount := uiAmt post
    let cur := fl post.mint
    let cur2 := { cur with
      decimals := post.decimals
      total_received := cur.total_received + amount
      net_change := cur.net_change + amount
      transaction_count := cur.transaction_count + 1 }
    fun m => if m = post.mint then cur2 else fl m
  | some pre, none =>
    let amount := uiAmt pre
    let cur := fl pre.mint
    let cur2 := { cur with
      decimals := pre.decimals
      total_sent := cur.total_sent + amount
      net_change := cur.net_change - amount
      transaction_count := cur.transaction_count + 1 }
    fun m => if m = pre.mint then cur2 else fl m
  | none, none => fl

/-- SOL part of the loop body for one target index (lines 161-187): counts
the index whenever both lamport balance arrays cover it, even for a zero
change. -/
def flowSolStep (meta : TxMeta) (fl : String → FlowTotals) (idx : Nat) :
    String → FlowTotals :=
  if idx < meta.pre_balances.length ∧ idx < meta.post_balances.length then
    let change := lamportsToSol (meta.post_balances.getD idx 0) -
      lamportsToSol (meta.pre_balances.getD idx 0)
    let cur := fl "SOL"
    let cur1 := { cur with transaction_count := cur.transaction_count + 1 }
    let cur2 :=
      if change > 0 then
        { cur1 with total_received := cur1.total_received + change }
      else if change < 0 then
        { cur1 with total_sent := cur1.total_sent + (-change) }
      else cur1
    let cur3 := { cur2 with net_change := cur2.net_change + change }
    fun m => if m = "SOL" then cur3 else fl m
  else fl

/-- Loop body for one transaction: all token sub-entries, then all SOL
sub-entries. -/
def flowStepTx (target : String) (fl : String → FlowTotals) (tx : Tx) :
    String → FlowTotals :=
  match tx.meta with
  | none => fl
  | some meta =>
    if meta.err then fl
    else
      let tis := targetIndices tx.account_keys target
      tis.foldl (flowSolStep meta) (tis.foldl (flowTokenStep meta) fl)

/-- TransactionAnalyzer.analyze_token_flows. -/
def analyze_token_flows (transactions : List Tx) (target : String) :
    String → FlowTotals :=
  transactions.foldl (flowStepTx target) (fun _ => flowsDefault)

/-! ## Claim C7 (FlowAggregator) -/

/-- The delta contributed to an asset by the token part of one target index;
none when the sub-entry does not qualify for that asset. -/
def tokenDelta (meta : TxMeta) (idx : Nat) (mint : String) : Option Rat :=
  match idxLookup meta.pre_token_balances idx,
      idxLookup meta.post_token_balances idx with
  | some pre, some post =>
    if pre.mint = post.mint then
      if pre.mint = mint then some (uiAmt post - uiAmt pre) else none
    else none
  | none, some post => if post.mint = mint then some (uiAmt post) else none
  | some pre, none => if pre.mint = mint then some (-(uiAmt pre)) else none
  | none, none => none

/-- The SOL delta of one target index; none when either lamport array does
not cover the index. -/
def solDelta (meta : TxMeta) (idx : Nat) : Option Rat :=
  if idx < meta.pre_balances.length ∧ idx < meta.post_balances.length then
    some (lamportsToSol (meta.post_balances.getD idx 0) -
      lamportsToSol (meta.pre_balances.getD idx 0))
  else none

/-- All qualifying sub-entry deltas of one transaction for one asset, in
processing order: token sub-entries first, then (for SOL) lamport
sub-entries. -/
def txSubDeltas (target : String) (mint : String) (tx : Tx) : List Rat :=
  match tx.meta with
  | none => []
  | some meta =>
    if meta.err then []
    else
      (targetIndices tx.account_keys target).filterMap
        (fun i => tokenDelta meta i mint) ++
      (if mint = "SOL" then
        (targetIndices tx.account_keys target).filterMap (fun i => solDelta meta i)
      else [])

/-- All qualifying sub-entry deltas of a transaction list for one asset. -/
def subDeltas (transactions : List Tx) (target : String) (mint : String) :
    List Rat :=
  transactions.flatMap (txSubDeltas target mint)

/-- All token ui_amounts of the input are nonnegative (as they are on
chain). -/
def nonnegAmounts (transactions : List Tx) : Prop :=
  ∀ tx ∈ transactions, ∀ m : TxMeta, tx.meta = some m →
    (∀ tb ∈ m.pre_token_balances, 0 ≤ uiAmt tb) ∧
    (∀ tb ∈ m.post_token_balances, 0 ≤ uiAmt tb)

/-- The four totals the claim speaks about. -/
def flowFields (ft : FlowTotals) : Rat × Rat × Rat × Nat :=
  (ft.total_received, ft.total_sent, ft.net_change, ft.transaction_count)

/-- Accumulating one qualifying delta: its positive part into received, the
magnitude of its negative part into sent, itself into net, one into count. -/
def addContrib (t : Rat × Rat × Rat × Nat) (d : Rat) : Rat × Rat × Rat × Nat :=
  (t.1 + max d 0, t.2.1 + max (-d) 0, t.2.2.1 + d, t.2.2.2 + 1)

theorem idxLookup_mem (l : List TokenBalance) (i : Nat) (tb : TokenBalance)
    (h : idxLookup l i = some tb) : tb ∈ l := by
  unfold idxLookup at h
  set l2 := l.filter (fun tb => tb.account_index == i) with hl2
  have hne : l2 ≠ [] := by
    intro hcontr
    rw [hcontr] at h
    simp at h
  rw [List.getLast?_eq_getLast_of_ne_nil hne] at h
  have heq : tb = l2.getLast hne := by injection h with h2; exact h2.symm
  rw [heq]
  exact List.mem_of_mem_filter (List.getLast_mem hne)

theorem max_pos_part (a : Rat) : max a 0 = if 0 < a then a else 0 := by
  split_ifs with h
  · exact max_eq_left (le_of_lt h)
  · exact max_eq_right (not_lt.mp h)

theorem max_neg_part (a : Rat) : max (-a) 0 = if a < 0 then -a else 0 := by
  split_ifs with h
  · exact max_eq_left (by linarith)
  · exact max_eq_right (by linarith)

theorem flowTokenStep_fields (meta : TxMeta) (idx : Nat) (mint : String)
    (hpre : ∀ tb ∈ meta.pre_token_balances, 0 ≤ uiAmt tb)
    (hpost : ∀ tb ∈ meta.post_token_balances, 0 ≤ uiAmt tb)
    (fl : String → FlowTotals) :
    flowFields ((flowTokenStep meta fl idx) mint) =
      (tokenDelta meta idx mint).elim (flowFields (fl mint))
        (addContrib (flowFields (fl mint))) := by
  rcases hp : idxLookup meta.pre_token_balances idx with _ | pre <;>
    rcases hq : idxLookup meta.post_token_balances idx with _ | post <;>
      simp only [flowTokenStep, tokenDelta, hp, hq]
  · rfl
  · have h1 : 0 ≤ uiAmt post := hpost post (idxLookup_mem _ _ _ hq)
    by_cases ha : post.mint = mint
    · rw [if_pos ha.symm, if_pos ha, ha]
      simp only [Option.elim, flowFields, addContrib, Prod.mk.injEq,
        max_pos_part, max_neg_part, neg_neg]
      repeat' apply And.intro
      all_goals first | rfl | trivial | linarith |
        (split_ifs <;> (try simp only []) <;> first | rfl | linarith)
    · rw [if_neg (fun hc => ha hc.symm), if_neg ha]
      rfl
  · have h1 : 0 ≤ uiAmt pre := hpre pre (idxLookup_mem _ _ _ hp)
    by_cases ha : pre.mint = mint
    · rw [if_pos ha.symm, if_pos ha, ha]
      simp only [Option.elim, flowFields, addContrib, Prod.mk.injEq,
        max_pos_part, max_neg_part, neg_neg]
      repeat' apply And.intro
      all_goals first | rfl | trivial | linarith |
        (split_ifs <;> (try simp only []) <;> first | rfl | linarith)
    · rw [if_neg (fun hc => ha hc.symm), if_neg ha]
      rfl
  · by_cases hmm : pre.mint = post.mint
    · rw [if_pos hmm, if_pos hmm]
      by_cases hb : pre.mint = mint
      · rw [if_pos hb.symm, if_pos hb, hb]
        simp only [Option.elim, flowFields, addContrib, Prod.mk.injEq,
          max_pos_part, max_neg_part, neg_neg]
        repeat' apply And.intro
        all_goals first | rfl | trivial | linarith |
          (split_ifs <;> (try simp only []) <;> first | rfl | linarith)
      · rw [if_neg (fun hc => hb hc.symm), if_neg hb]
        rfl
    · rw [if_neg hmm, if_neg hmm]
      rfl

theorem flowSolStep_fields (meta : TxMeta) (idx : Nat) (mint : String)
    (fl : String → FlowTotals) :
    flowFields ((flowSolStep meta fl idx) mint) =
      (if mint = "SOL" then
        (solDelta meta idx).elim (flowFields (fl mint))
          (addContrib (flowFields (fl mint)))
      else flowFields (fl mint)) := by
  simp only [flowSolStep, solDelta]
  by_cases hc : idx < meta.pre_balances.length ∧ idx < meta.post_balances.length
  · rw [if_pos hc, if_pos hc]
    by_cases hm : mint = "SOL"
    · rw [if_pos hm, if_pos hm, hm]
      simp only [Option.elim, flowFields, addContrib, Prod.mk.injEq,
        max_pos_part, max_neg_part, neg_neg]
      repeat' apply And.intro
      all_goals first | rfl | trivial | linarith |
        (split_ifs <;> (try simp only []) <;> first | rfl | linarith)
    · rw [if_neg hm, if_neg hm]
  · rw [if_neg hc, if_neg hc]
    split_ifs <;> rfl

theorem flow_fold_token (meta : TxMeta) (mint : String)
    (hpre : ∀ tb ∈ meta.pre_token_balances, 0 ≤ uiAmt tb)
    (hpost : ∀ tb ∈ meta.post_token_balances, 0 ≤ uiAmt tb) :
    ∀ (tis : List Nat) (fl : String → FlowTotals),
      flowFields ((tis.foldl (flowTokenStep meta) fl) mint) =
        (tis.filterMap (fun i => tokenDelta meta i mint)).foldl addContrib
          (flowFields (fl mint)) := by
  intro tis
  induction tis with
  | nil => intro fl; rfl
  | cons i rest ih =>
    intro fl
    have hstep := flowTokenStep_fields meta i mint hpre hpost fl
    cases hd : tokenDelta meta i mint with
    | none =>
      rw [hd] at hstep
      simp only [Option.elim] at hstep
      simp only [List.foldl_cons, List.filterMap_cons, hd]
      rw [ih, hstep]
    | some d =>
      rw [hd] at hstep
      simp only [Option.elim] at hstep
      simp only [List.foldl_cons, List.filterMap_cons, hd]
      rw [ih, hstep]

theorem flow_fold_sol (meta : TxMeta) (mint : String) :
    ∀ (tis : List Nat) (fl : String → FlowTotals),
      flowFields ((tis.foldl (flowSolStep meta) fl) mint) =
        (if mint = "SOL" then tis.filterMap (fun i => solDelta meta i)
          else []).foldl addContrib (flowFields (fl mint)) := by
  intro tis
  induction tis with
  | nil =>
    intro fl
    split_ifs <;> rfl
  | cons i rest ih =>
    intro fl
    have hstep := flowSolStep_fields meta i mint fl
    by_cases hm : mint = "SOL"
    · rw [if_pos hm] at hstep ⊢
      cases hd : solDelta meta i with
      | none =>
        rw [hd] at hstep
        simp only [Option.elim] at hstep
        simp only [List.foldl_cons, List.filterMap_cons, hd]
        rw [ih, if_pos hm, hstep]
      | some d =>
        rw [hd] at hstep
        simp only [Option.elim] at hstep
        simp only [List.foldl_cons, List.filterMap_cons, hd]
        rw [ih, if_pos hm, hstep]
    · rw [if_neg hm] at hstep ⊢
      simp only [List.foldl_cons]
      rw [ih, if_neg hm, hstep]

theorem flowStepTx_fields (target : String) (mint : String) (tx : Tx)
    (hnn : ∀ m : TxMeta, tx.meta = some m →
      (∀ tb ∈ m.pre_token_balances, 0 ≤ uiAmt tb) ∧
      (∀ tb ∈ m.post_token_balances, 0 ≤ uiAmt tb))
    (fl : String → FlowTotals) :
    flowFields ((flowStepTx target fl tx) mint) =
      (txSubDeltas target mint tx).foldl addContrib (flowFields (fl mint)) := by
  rcases hm : tx.meta with _ | meta
  · simp [flowStepTx, txSubDeltas, hm]
  · obtain ⟨hpre, hpost⟩ := hnn meta hm
    by_cases herr : meta.err = true
    · simp [flowStepTx, txSubDeltas, hm, herr]
    · simp only [flowStepTx, txSubDeltas, hm, if_neg herr]
      rw [flow_fold_sol, flow_fold_token meta mint hpre hpost,
        List.foldl_append]

theorem analyze_token_flows_fields (transactions : List Tx) (target : String)
    (hnn : nonnegAmounts transactions) (mint : String) :
    flowFields (analyze_token_flows transactions target mint) =
      (subDeltas transactions target mint).foldl addContrib
        (flowFields flowsDefault) := by
  suffices h : ∀ txs : List Tx,
      (∀ tx ∈ txs, ∀ m : TxMeta, tx.meta = some m →
        (∀ tb ∈ m.pre_token_balances, 0 ≤ uiAmt tb) ∧
        (∀ tb ∈ m.post_token_balances, 0 ≤ uiAmt tb)) →
      ∀ fl : String → FlowTotals,
        flowFields ((txs.foldl (flowStepTx target) fl) mint) =
          (txs.flatMap (txSubDeltas target mint)).foldl addContrib
            (flowFields (fl mint)) by
    exact h transactions hnn _
  intro txs
  induction txs with
  | nil => intro hh fl; rfl
  | cons tx rest ih =>
    intro hh fl
    simp only [List.foldl_cons, List.flatMap_cons, List.foldl_append]
    rw [ih (fun t ht m hm2 => hh t (List.mem_cons_of_mem tx ht) m hm2),
      flowStepTx_fields target mint tx
        (fun m hm2 => hh tx (List.mem_cons_self tx rest) m hm2)]

theorem foldl_addContrib_eq (ds : List Rat) :
    ∀ t : Rat × Rat × Rat × Nat,
      ds.foldl addContrib t =
        (t.1 + (ds.map (fun d => max d 0)).sum,
         t.2.1 + (ds.map (fun d => max (-d) 0)).sum,
         t.2.2.1 + ds.sum,
         t.2.2.2 + ds.length) := by
  induction ds with
  | nil => intro t; simp
  | cons d rest ih =>
    intro t
    simp only [List.foldl_cons, List.map_cons, List.sum_cons, List.length_cons]
    rw [ih]
    simp only [addContrib, Prod.mk.injEq]
    refine ⟨by ring, by ring, by ring, by omega⟩

theorem sum_pos_neg_parts (ds : List Rat) :
    ds.sum = (ds.map (fun d => max d 0)).sum -
      (ds.map (fun d => max (-d) 0)).sum := by
  induction ds with
  | nil => simp
  | cons d rest ih =>
    simp only [List.map_cons, List.sum_cons]
    have hd : max d 0 - max (-d) 0 = d := by
      rcases le_total 0 d with h | h
      · rw [max_eq_left h, max_eq_right (by linarith)]
        ring
      · rw [max_eq_right h, max_eq_left (by linarith)]
        ring
    linarith

/-- C7 (amended): for inputs whose token amounts are nonnegative (as they
are on chain), analyze_token_flows classifies each qualifying sub-entry
delta as received when positive and sent when negative (accumulating its
magnitude), maintains net = received − sent, and increments the asset's
transaction_count once per qualifying sub-entry (account-index occurrence),
not once per transaction per asset. -/
theorem c7_flow_amended (transactions : List Tx) (target : String)
    (hnn : nonnegAmounts transactions) (mint : String) :
    (analyze_token_flows transactions target mint).total_received =
      ((subDeltas transactions target mint).map (fun d => max d 0)).sum ∧
    (analyze_token_flows transactions target mint).total_sent =
      ((subDeltas transactions target mint).map (fun d => max (-d) 0)).sum ∧
    (analyze_token_flows transactions target mint).net_change =
      (subDeltas transactions target mint).sum ∧
    (analyze_token_flows transactions target mint).transaction_count =
      (subDeltas transactions target mint).length ∧
    (analyze_token_flows transactions target mint).net_change =
      (analyze_token_flows transactions target mint).total_received -
        (analyze_token_flows transactions target mint).total_sent := by
  have h := analyze_token_flows_fields transactions target hnn mint
  rw [foldl_addContrib_eq] at h
  have hr := congrArg (fun p : Rat × Rat × Rat × Nat => p.1) h
  have hs := congrArg (fun p : Rat × Rat × Rat × Nat => p.2.1) h
  have hn := congrArg (fun p : Rat × Rat × Rat × Nat => p.2.2.1) h
  have hc := congrArg (fun p : Rat × Rat × Rat × Nat => p.2.2.2) h
  simp only [flowFields, flowsDefault, zero_add] at hr hs hn hc
  refine ⟨hr, hs, hn, hc, ?_⟩
  rw [hr, hs, hn]
  exact sum_pos_neg_parts _

/-- A single transaction in which the target address occupies two account
indices, each carrying a token-balance entry for the same mint M. -/
def txC7 : Tx :=
  ⟨"f1", none, some 100,
    some ⟨false, [], [], [⟨0, "M", some 1, 6⟩, ⟨1, "M", some 2, 6⟩],
      [⟨0, "M", some 3, 6⟩, ⟨1, "M", some 5, 6⟩]⟩,
    ["acc", "acc"]⟩

/-- C7 counterexample: one single body touching asset M yields
transaction_count = 2, because analyze_token_flows increments the counter
once per matching account index (sub-entry), not once per body per asset. -/
theorem c7_flow_counterexample :
    [txC7].length = 1 ∧
    (analyze_token_flows [txC7] "acc" "M").transaction_count = 2 := by
  refine ⟨rfl, ?_⟩
  norm_num [analyze_token_flows, flowStepTx, flowTokenStep, flowSolStep,
    targetIndices, idxLookup, uiAmt, lamportsToSol, txC7, flowsDefault,
    List.enum, List.enumFrom]

/-- C7 amended witness: on the concrete two-sub-entry body the count equals
the number of qualifying sub-entries (two) and net = received − sent. -/
theorem c7_flow_amended_witness :
    nonnegAmounts [txC7] ∧
    (analyze_token_flows [txC7] "acc" "M").transaction_count =
      (subDeltas [txC7] "acc" "M").length ∧
    (subDeltas [txC7] "acc" "M").length = 2 ∧
    (analyze_token_flows [txC7] "acc" "M").net_change =
      (analyze_token_flows [txC7] "acc" "M").total_received -
        (analyze_token_flows [txC7] "acc" "M").total_sent := by
  have hnn : nonnegAmounts [txC7] := by
    intro tx htx m hm
    simp only [List.mem_singleton] at htx
    subst htx
    simp only [txC7, Option.some_inj] at hm
    subst hm
    constructor
    · intro tb htb
      fin_cases htb <;> norm_num [uiAmt]
    · intro tb htb
      fin_cases htb <;> norm_num [uiAmt]
  have h := c7_flow_amended [txC7] "acc" hnn "M"
  have htis : targetIndices ["acc", "acc"] "acc" = [0, 1] := by
    norm_num [targetIndices, List.enum, List.enumFrom]
  refine ⟨hnn, h.2.2.2.1, ?_, h.2.2.2.2⟩
  show (subDeltas [txC7] "acc" "M").length = 2
  simp only [subDeltas, txSubDeltas, txC7, List.flatMap_cons, List.flatMap_nil]
  rw [htis]
  rfl
